import Mathlib

/-!
Verification of the QActor qualitative control actor (qactor.py) against its
design specification.  The actor state is a record of seven maps keyed by
variable name (Python dicts keyed by strings); we embed them as functions
`V → Option ℝ` over an arbitrary variable-name type `V` with decidable
equality.  Real-valued quantities are embedded as `ℝ` (the idealisation of
Python floats used throughout the spec); `math.sqrt` becomes `Real.sqrt`,
which forces the kinematic definitions to be `noncomputable`.
-/

namespace QActor

/-- Update of a dict entry: `m[k] = x`. -/
def mapUpd {V : Type} [DecidableEq V] (m : V → Option ℝ) (k : V) (x : ℝ) :
    V → Option ℝ :=
  fun j => if j = k then some x else m j

/-- The signed-extremum update of `observe`:
`if k in m: (if mag > m[k]: m[k] = mag) else: m[k] = mag`. -/
noncomputable def updateMax {V : Type} [DecidableEq V] (m : V → Option ℝ) (k : V)
    (mag : ℝ) : V → Option ℝ :=
  match m k with
  | some cur => if cur < mag then mapUpd m k mag else m
  | none => mapUpd m k mag

/-- The mutable state of a `QActor` instance: the three transient maps
(`_current_x`, `_current_v`, `_current_a`) and the four learned extrema maps
(`_max_v_pos`, `_max_v_neg`, `_max_a_pos`, `_max_a_neg`).  A Python dict with
a possibly-absent key is a function into `Option ℝ`. -/
structure State (V : Type) where
  current_x : V → Option ℝ
  current_v : V → Option ℝ
  current_a : V → Option ℝ
  max_v_pos : V → Option ℝ
  max_v_neg : V → Option ℝ
  max_a_pos : V → Option ℝ
  max_a_neg : V → Option ℝ

/-- `reset`: clear the current state and the learned parameters.  Also the
state constructed by `__init__`. -/
def reset (V : Type) : State V :=
  { current_x := fun _ => none
    current_v := fun _ => none
    current_a := fun _ => none
    max_v_pos := fun _ => none
    max_v_neg := fun _ => none
    max_a_pos := fun _ => none
    max_a_neg := fun _ => none }

/-- `restart`: clear the current state, but keep the learned parameters. -/
def restart {V : Type} (s : State V) : State V :=
  { s with
    current_x := fun _ => none
    current_v := fun _ => none
    current_a := fun _ => none }

/-- One iteration of the loop body of `observe` for a single variable `u`
with new sample `x` and time step `dt`.  Mirrors qactor.py lines 34-72:
compute the velocity if a previous position exists, store the new position,
then (if a velocity was computed) compute the acceleration if a previous
velocity exists, store the velocity, update the signed velocity extremum,
store the acceleration and update the signed acceleration extremum. -/
noncomputable def observeVar {V : Type} [DecidableEq V] (dt : ℝ) (s : State V)
    (u : V) (x : ℝ) : State V :=
  let vOpt : Option ℝ := (s.current_x u).map (fun x0 => (x - x0) / dt)
  let s1 : State V := { s with current_x := mapUpd s.current_x u x }
  match vOpt with
  | none => s1
  | some v =>
    let aOpt : Option ℝ := (s1.current_v u).map (fun v0 => (v - v0) / dt)
    let s2 : State V := { s1 with current_v := mapUpd s1.current_v u v }
    let s3 : State V :=
      if v ≠ 0 then
        if 0 < v then { s2 with max_v_pos := updateMax s2.max_v_pos u |v| }
        else { s2 with max_v_neg := updateMax s2.max_v_neg u |v| }
      else s2
    match aOpt with
    | none => s3
    | some a =>
      let s4 : State V := { s3 with current_a := mapUpd s3.current_a u a }
      if a ≠ 0 then
        if 0 < a then { s4 with max_a_pos := updateMax s4.max_a_pos u |a| }
        else { s4 with max_a_neg := updateMax s4.max_a_neg u |a| }
      else s4

/-- `observe(numerical_state, dt)`: iterate `observeVar` over the entries of
the observation dict (embedded as an association list in iteration order). -/
noncomputable def observe {V : Type} [DecidableEq V] (s : State V)
    (numerical_state : List (V × ℝ)) (dt : ℝ) : State V :=
  numerical_state.foldl (fun t p => observeVar dt t p.1 p.2) s

/-- The raising behaviour of `observe` for a single variable: the expression
`(x - x0) / dt` raises `ZeroDivisionError` in Python exactly when a previous
position is recorded and `dt = 0`; otherwise no division by zero can occur
(the acceleration division uses the same `dt`). -/
noncomputable def observeVarE {V : Type} [DecidableEq V] (dt : ℝ) (s : State V)
    (u : V) (x : ℝ) : Except Unit (State V) :=
  match s.current_x u with
  | some _ =>
    if dt = 0 then Except.error () else Except.ok (observeVar dt s u x)
  | none => Except.ok (observeVar dt s u x)

/-- `observe` with Python's raising semantics over the whole observation
dict: the first variable that divides by zero aborts the call. -/
noncomputable def observeE {V : Type} [DecidableEq V] (s : State V)
    (numerical_state : List (V × ℝ)) (dt : ℝ) : Except Unit (State V) :=
  numerical_state.foldlM (fun t p => observeVarE dt t p.1 p.2) s

/-- `_time_to_goal(dist, v0, v1, acc, dcc)` (qactor.py lines 134-161): the
one-directional bang-bang kinematic solver.  `dist` is the unsigned distance,
`v0` the current speed (positive towards the goal), `v1` the maximum speed,
`acc`/`dcc` the unsigned accelerations towards/away from the goal. -/
noncomputable def time_to_goal (dist v0 v1 acc dcc : ℝ) : ℝ :=
  if h : 0 ≤ v0 then
    -- moving towards the goal: vx is the speed reached at the goal position
    let vx := Real.sqrt (v0 ^ 2 + 2 * acc * dist)
    if vx ≤ v1 then (vx - v0) / acc
    else (v1 - v0) / acc + (dist - (v1 ^ 2 - v0 ^ 2) / (2 * acc)) / v1
  else
    -- moving away from the goal: stop first, then solve from the stop point
    (-v0) / acc + time_to_goal (dist + v0 ^ 2 / (2 * acc)) 0 v1 acc dcc
termination_by if 0 ≤ v0 then 0 else 1
decreasing_by
  rw [if_pos le_rfl, if_neg h]
  exact Nat.zero_lt_one

/-- Fuel-indexed variant of `time_to_goal`: each call consumes one unit of
fuel, `none` meaning the recursion would need to go deeper than the fuel
allows.  Used to state the static recursion-depth bound. -/
noncomputable def timeToGoalFuel : ℕ → ℝ → ℝ → ℝ → ℝ → ℝ → Option ℝ
  | 0, _, _, _, _, _ => none
  | n + 1, dist, v0, v1, acc, dcc =>
    if 0 ≤ v0 then
      let vx := Real.sqrt (v0 ^ 2 + 2 * acc * dist)
      some (if vx ≤ v1 then (vx - v0) / acc
            else (v1 - v0) / acc + (dist - (v1 ^ 2 - v0 ^ 2) / (2 * acc)) / v1)
    else
      (timeToGoalFuel n (dist + v0 ^ 2 / (2 * acc)) 0 v1 acc dcc).map
        (fun t => (-v0) / acc + t)

/-- `_eta(variable, x1)` (qactor.py lines 111-132).  In Python,
`self._current_x[variable]` raises `KeyError` when the variable was never
observed — a caller-contract violation per the spec; the embedding totalises
that lookup with default `0`, and every claim about `eta` is used under the
hypothesis that the position is recorded.  The remaining lookups carry their
explicit source defaults (`0` for the velocity, `1` for the extrema). -/
noncomputable def eta {V : Type} [DecidableEq V] (s : State V) (u : V)
    (x1 : ℝ) : ℝ :=
  let x := (s.current_x u).getD 0
  let v0 := (s.current_v u).getD 0
  let v1_pos := (s.max_v_pos u).getD 1
  let v1_neg := (s.max_v_neg u).getD 1
  let acc := (s.max_a_pos u).getD 1
  let dcc := (s.max_a_neg u).getD 1
  let dist := x1 - x
  if 0 < dist then time_to_goal dist v0 v1_pos acc dcc
  else if dist < 0 then time_to_goal (-dist) (-v0) v1_neg dcc acc
  else 0

/-- The external Qualitative Model (qmodel.py): `actions` enumerates the
available qualitative actions given the current numerical state, `effect`
maps a qualitative action to its effect vector.  A qualitative action is a
dict from control-variable names to signed integers, embedded as an
association list to keep its enumeration order and entry count; the effect
dict must cover every target variable, so it is embedded as a total
function. -/
structure QModel (V : Type) where
  actions : (V → Option ℝ) → List (List (V × ℤ))
  effect : List (V × ℤ) → (V → Option ℝ) → V → ℤ

/-- The desired-direction sign `math.copysign(1, d)`, generalised by a
parameter `σ` giving the value chosen at `d = 0`.  For real arguments,
`copysign(1, d)` is `-1` when `d < 0` and `1` otherwise, and
`target_value - current_value` is positive zero when the two are equal, so
the source behaviour is `signAt 1`. -/
noncomputable def signAt (σ d : ℝ) : ℝ :=
  if d < 0 then -1 else if d = 0 then σ else 1

/-- The vote accumulated for one action over the target dict
(qactor.py lines 86-95), with the sign-at-zero convention `σ`. -/
noncomputable def actionVote {V : Type} [DecidableEq V] (s : State V) (σ : ℝ)
    (eff : V → ℤ) (target : List (V × ℝ)) : ℝ :=
  target.foldl (fun vote p =>
    let current_value := (s.current_x p.1).getD 0
    let desired_direction := signAt σ (p.2 - current_value)
    let action_direction : ℝ := if |eff p.1| ≤ 1 then (eff p.1 : ℝ) else 0
    vote + (desired_direction * action_direction) * eta s p.1 p.2) 0

/-- The rank of an action (qactor.py lines 98-100): the number of its
entries with magnitude exactly 1. -/
def actionRank {V : Type} (action : List (V × ℤ)) : ℕ :=
  action.foldl (fun r p => r + if p.2.natAbs = 1 then 1 else 0) 0

/-- The list of `(action, vote, rank)` triples built by `act`, in the
model's enumeration order. -/
noncomputable def votes {V : Type} [DecidableEq V] (m : QModel V) (s : State V)
    (σ : ℝ) (target : List (V × ℝ)) : List ((List (V × ℤ)) × ℝ × ℕ) :=
  (m.actions s.current_x).map (fun action =>
    (action, actionVote s σ (m.effect action s.current_x) target,
      actionRank action))

/-- The sort key of a vote triple: the `(vote, rank)` pair under the
lexicographic order. -/
def voteKey {V : Type} (t : (List (V × ℤ)) × ℝ × ℕ) : ℝ ×ₗ ℕ :=
  toLex (t.2.1, t.2.2)

/-- First maximum of `b :: l` under `key`: replace the running best only on
a strictly greater key.  This is the head of a stable descending sort of
`b :: l` by `key`, i.e. `sorted(votes, key=..., reverse=True)[0]` in Python
(Python's sort is stable, so the first element with the maximal key wins). -/
def firstArgmax {β K : Type} [LinearOrder K] (key : β → K) (b : β)
    (l : List β) : β :=
  l.foldl (fun best c => if key best < key c then c else best) b

/-- `act(target)` (qactor.py lines 77-109) with the sign-at-zero convention
`σ`: build the vote triples and return the action of the triple with the
lexicographically greatest `(vote, rank)` key, first of equals winning.
Python raises `IndexError` on an empty action enumeration (a model-contract
violation); the embedding returns `none` there. -/
noncomputable def actGen {V : Type} [DecidableEq V] (m : QModel V)
    (s : State V) (σ : ℝ) (target : List (V × ℝ)) : Option (List (V × ℤ)) :=
  match votes m s σ target with
  | [] => none
  | v :: vs => some (firstArgmax voteKey v vs).1

/-- `act(target)` as in the source: `math.copysign(1, 0.0) = 1`, so the
sign-at-zero parameter is `1`. -/
noncomputable def act {V : Type} [DecidableEq V] (m : QModel V) (s : State V)
    (target : List (V × ℝ)) : Option (List (V × ℤ)) :=
  actGen m s 1 target

/-- Unfolding of `time_to_goal` on the moving-towards-the-goal branch. -/
lemma time_to_goal_of_nonneg (dist v0 v1 acc dcc : ℝ) (h : 0 ≤ v0) :
    time_to_goal dist v0 v1 acc dcc =
      if Real.sqrt (v0 ^ 2 + 2 * acc * dist) ≤ v1 then
        (Real.sqrt (v0 ^ 2 + 2 * acc * dist) - v0) / acc
      else (v1 - v0) / acc + (dist - (v1 ^ 2 - v0 ^ 2) / (2 * acc)) / v1 := by
  rw [time_to_goal, dif_pos h]

/-- Unfolding of `time_to_goal` on the moving-away-from-the-goal branch. -/
lemma time_to_goal_of_neg (dist v0 v1 acc dcc : ℝ) (h : v0 < 0) :
    time_to_goal dist v0 v1 acc dcc =
      (-v0) / acc + time_to_goal (dist + v0 ^ 2 / (2 * acc)) 0 v1 acc dcc := by
  rw [time_to_goal, dif_neg (not_le.mpr h)]

/-- C4: at the cruise-speed threshold, where `vx = sqrt(v0^2 + 2*acc*dist)`
equals `v1` exactly, the two branches of the toward-goal case of
`time_to_goal` agree: `(vx - v0)/acc = (v1 - v0)/acc +
(dist - (v1^2 - v0^2)/(2*acc))/v1`, so `time_to_goal` is continuous there. -/
theorem C4_threshold_branches_agree (dist v0 v1 acc dcc : ℝ)
    (hacc : 0 < acc) (hv1 : 0 < v1) (hdist : 0 ≤ dist)
    (hv0 : 0 ≤ v0) (hv0le : v0 ≤ v1)
    (hvx : Real.sqrt (v0 ^ 2 + 2 * acc * dist) = v1) :
    (Real.sqrt (v0 ^ 2 + 2 * acc * dist) - v0) / acc
      = (v1 - v0) / acc + (dist - (v1 ^ 2 - v0 ^ 2) / (2 * acc)) / v1
    ∧ time_to_goal dist v0 v1 acc dcc = (v1 - v0) / acc := by
  have harg : (0 : ℝ) ≤ v0 ^ 2 + 2 * acc * dist := by positivity
  have hsq : v0 ^ 2 + 2 * acc * dist = v1 ^ 2 := by
    rw [← hvx, Real.sq_sqrt harg]
  have hrem : dist - (v1 ^ 2 - v0 ^ 2) / (2 * acc) = 0 := by
    have : v1 ^ 2 - v0 ^ 2 = 2 * acc * dist := by linarith
    rw [this]
    field_simp
  constructor
  · rw [hvx, hrem]
    simp
  · rw [time_to_goal_of_nonneg dist v0 v1 acc dcc hv0,
      if_pos (le_of_eq hvx), hvx]

/-- C4 witness: the threshold hypotheses are satisfiable, e.g. at
`dist = 1/2`, `v0 = 0`, `v1 = 1`, `acc = 1`. -/
theorem C4_threshold_branches_agree_witness :
    Real.sqrt ((0 : ℝ) ^ 2 + 2 * 1 * (1 / 2)) = 1
    ∧ ((Real.sqrt ((0 : ℝ) ^ 2 + 2 * 1 * (1 / 2)) - 0) / 1
        = (1 - 0) / 1 + ((1 / 2 : ℝ) - (1 ^ 2 - 0 ^ 2) / (2 * 1)) / 1
      ∧ time_to_goal (1 / 2) 0 1 1 1 = (1 - 0) / 1) := by
  have h : Real.sqrt ((0 : ℝ) ^ 2 + 2 * 1 * (1 / 2)) = 1 := by
    rw [show (0 : ℝ) ^ 2 + 2 * 1 * (1 / 2) = 1 by norm_num, Real.sqrt_one]
  exact ⟨h, C4_threshold_branches_agree (1 / 2) 0 1 1 1 (by norm_num)
    (by norm_num) (by norm_num) (by norm_num) (by norm_num) h⟩

/-- C5: for `v0 < 0`, `time_to_goal` makes exactly one recursive call, with
adjusted distance `dist + v0^2/(2*acc)` and initial velocity `0`; that call
takes the non-recursive branch (one unit of fuel suffices for it, while one
unit does not suffice for the outer call), and for all inputs two units of
fuel suffice, so the recursion depth is at most 2. -/
theorem C5_recursion_bounded (dist v0 v1 acc dcc : ℝ) (h : v0 < 0) :
    time_to_goal dist v0 v1 acc dcc
      = (-v0) / acc + time_to_goal (dist + v0 ^ 2 / (2 * acc)) 0 v1 acc dcc
    ∧ timeToGoalFuel 1 dist v0 v1 acc dcc = none
    ∧ timeToGoalFuel 1 (dist + v0 ^ 2 / (2 * acc)) 0 v1 acc dcc
        = some (time_to_goal (dist + v0 ^ 2 / (2 * acc)) 0 v1 acc dcc)
    ∧ ∀ d u0 u1 a b : ℝ,
        timeToGoalFuel 2 d u0 u1 a b = some (time_to_goal d u0 u1 a b) := by
  have fuel_succ_nonneg : ∀ (n : ℕ) (d u0 u1 a b : ℝ), 0 ≤ u0 →
      timeToGoalFuel (n + 1) d u0 u1 a b = some (time_to_goal d u0 u1 a b) := by
    intro n d u0 u1 a b hu0
    rw [timeToGoalFuel, if_pos hu0, time_to_goal_of_nonneg d u0 u1 a b hu0]
  refine ⟨time_to_goal_of_neg dist v0 v1 acc dcc h, ?_, ?_, ?_⟩
  · rw [timeToGoalFuel, if_neg (not_le.mpr h)]
    rfl
  · exact fuel_succ_nonneg 0 _ 0 v1 acc dcc le_rfl
  · intro d u0 u1 a b
    rcases le_or_lt 0 u0 with hu0 | hu0
    · exact fuel_succ_nonneg 1 d u0 u1 a b hu0
    · rw [timeToGoalFuel, if_neg (not_le.mpr hu0),
        fuel_succ_nonneg 0 _ 0 u1 a b le_rfl,
        time_to_goal_of_neg d u0 u1 a b hu0]
      rfl

/-- C5 witness: instantiation at `dist = 1`, `v0 = -1`, `v1 = 1`,
`acc = 1`, `dcc = 1`. -/
theorem C5_recursion_bounded_witness :
    (-1 : ℝ) < 0
    ∧ (time_to_goal 1 (-1) 1 1 1
        = (-(-1)) / 1 + time_to_goal (1 + (-1 : ℝ) ^ 2 / (2 * 1)) 0 1 1 1
      ∧ timeToGoalFuel 1 1 (-1) 1 1 1 = none
      ∧ timeToGoalFuel 1 (1 + (-1 : ℝ) ^ 2 / (2 * 1)) 0 1 1 1
          = some (time_to_goal (1 + (-1 : ℝ) ^ 2 / (2 * 1)) 0 1 1 1)
      ∧ ∀ d u0 u1 a b : ℝ,
          timeToGoalFuel 2 d u0 u1 a b = some (time_to_goal d u0 u1 a b)) :=
  ⟨by norm_num, C5_recursion_bounded 1 (-1) 1 1 1 (by norm_num)⟩

/-- C6: when the variable has a recorded position, `eta` returns exactly 0
at a target equal to that position, and for a target in the negative
direction it returns `time_to_goal` on the mirrored problem: distance
negated, initial velocity negated, cruise speed the learned max negative
velocity, and the acceleration/deceleration extrema swapped. -/
theorem C6_eta_zero_and_mirror {V : Type} [DecidableEq V] (s : State V)
    (u : V) (x tv : ℝ) (hx : s.current_x u = some x) :
    (tv = x → eta s u tv = 0)
    ∧ (tv < x → eta s u tv =
        time_to_goal (-(tv - x)) (-((s.current_v u).getD 0))
          ((s.max_v_neg u).getD 1) ((s.max_a_neg u).getD 1)
          ((s.max_a_pos u).getD 1)) := by
  constructor
  · intro htv
    rw [eta, hx, htv]
    simp
  · intro htv
    rw [eta, hx]
    simp only [Option.getD_some]
    rw [if_neg (by simp; linarith), if_pos (by linarith)]

/-- C3: a fresh actor observing variable `x` at position 0 and then
receiving `observe({'x': 1.0}, dt=1.0)` infers velocity 1, records the
velocity extremum 1 and keeps the unit defaults for the acceleration
extrema, so `eta('x', 2.0)` goes through the toward-goal branch with
`vx = sqrt(1 + 2*1*1) > v1 = 1` and returns
`(1-1)/1 + (1 - (1-1)/2)/1 = 1` exactly. -/
theorem C3_scenario_eta_one :
    eta (observe (observe (reset String) [("x", 0)] 1) [("x", 1)] 1) "x" 2
      = 1 := by
  have hs : observe (observe (reset String) [("x", 0)] 1) [("x", 1)] 1 =
      { current_x := mapUpd (mapUpd (fun _ => none) "x" 0) "x" 1
        current_v := mapUpd (fun _ => none) "x" 1
        current_a := fun _ => none
        max_v_pos := mapUpd (fun _ => none) "x" 1
        max_v_neg := fun _ => none
        max_a_pos := fun _ => none
        max_a_neg := fun _ => none } := by
    simp [observe, observeVar, reset, mapUpd, updateMax]
  have hroot : (1 : ℝ) < Real.sqrt (1 ^ 2 + 2 * 1 * 1) := by
    rw [show (1 : ℝ) ^ 2 + 2 * 1 * 1 = 3 by norm_num]
    exact (Real.lt_sqrt (by norm_num)).mpr (by norm_num)
  rw [hs, eta]
  norm_num [mapUpd]
  rw [time_to_goal_of_nonneg 1 1 1 1 1 (by norm_num),
    if_neg (not_le.mpr hroot)]
  norm_num

/-- A concrete state over a single variable with position 5 recorded and
nothing else, used to instantiate hypothesised theorems. -/
def posFiveState : State Unit :=
  { current_x := fun _ => some 5
    current_v := fun _ => none
    current_a := fun _ => none
    max_v_pos := fun _ => none
    max_v_neg := fun _ => none
    max_a_pos := fun _ => none
    max_a_neg := fun _ => none }

/-- The element produced by `firstArgmax key x l` is an element of `x :: l`
whose key is maximal, and every element strictly before it has a strictly
smaller key (first of equals wins, as in a stable descending sort). -/
lemma firstArgmax_spec {β : Type} {K : Type} [LinearOrder K] (key : β → K) :
    ∀ (l : List β) (x : β),
      ∃ (i : ℕ) (hi : i < (x :: l).length),
        firstArgmax key x l = (x :: l)[i]
        ∧ (∀ (j : ℕ) (hj : j < (x :: l).length),
            key ((x :: l)[j]) ≤ key ((x :: l)[i]))
        ∧ (∀ (j : ℕ) (hj : j < (x :: l).length), j < i →
            key ((x :: l)[j]) < key ((x :: l)[i])) := by
  intro l
  induction l with
  | nil =>
    intro x
    refine ⟨0, by simp, rfl, ?_, ?_⟩
    · intro j hj
      have : j = 0 := by simpa using hj
      subst this
      exact le_rfl
    · intro j hj hji
      omega
  | cons c t ih =>
    intro x
    have hstep : firstArgmax key x (c :: t)
        = firstArgmax key (if key x < key c then c else x) t := rfl
    by_cases hbc : key x < key c
    · obtain ⟨i, hi, heq, hmax, hfirst⟩ := ih c
      have hi2 : i + 1 < (x :: c :: t).length := by simpa using hi
      refine ⟨i + 1, hi2, ?_, ?_, ?_⟩
      · rw [hstep, if_pos hbc]
        simpa using heq
      · intro j hj
        match j, hj with
        | 0, hj =>
          have hc := hmax 0 (by simp)
          simp only [List.getElem_cons_zero, List.getElem_cons_succ] at hc ⊢
          exact le_trans (le_of_lt hbc) hc
        | j + 1, hj =>
          have := hmax j (by simpa using hj)
          simpa using this
      · intro j hj hji
        match j, hj with
        | 0, hj =>
          have hc := hmax 0 (by simp)
          simp only [List.getElem_cons_zero, List.getElem_cons_succ] at hc ⊢
          exact lt_of_lt_of_le hbc hc
        | j + 1, hj =>
          have := hfirst j (by simpa using hj) (by omega)
          simpa using this
    · obtain ⟨i, hi, heq, hmax, hfirst⟩ := ih x
      match i, hi with
      | 0, hi =>
        refine ⟨0, by simp, ?_, ?_, ?_⟩
        · rw [hstep, if_neg hbc]
          simpa using heq
        · intro j hj
          match j, hj with
          | 0, hj => exact le_rfl
          | 1, hj =>
            simp only [List.getElem_cons_zero, List.getElem_cons_succ]
            exact le_of_not_lt hbc
          | j + 2, hj =>
            have := hmax (j + 1) (by simpa using hj)
            simpa using this
        · intro j hj hji
          omega
      | i + 1, hi =>
        have hb_lt : key x < key ((x :: t)[i + 1]) := hfirst 0 (by simp) (by omega)
        have hi2 : i + 2 < (x :: c :: t).length := by simpa using hi
        refine ⟨i + 2, hi2, ?_, ?_, ?_⟩
        · rw [hstep, if_neg hbc]
          simpa using heq
        · intro j hj
          match j, hj with
          | 0, hj =>
            have := hmax 0 (by simp)
            simpa using this
          | 1, hj =>
            simp only [List.getElem_cons_succ, List.getElem_cons_zero]
            have hxb := le_of_not_lt hbc
            have h2 := hb_lt
            simp only [List.getElem_cons_succ] at h2
            exact le_trans hxb (le_of_lt h2)
          | j + 2, hj =>
            have := hmax (j + 1) (by simpa using hj)
            simpa using this
        · intro j hj hji
          match j, hj with
          | 0, hj =>
            have h2 := hb_lt
            simp only [List.getElem_cons_succ] at h2 ⊢
            simpa using h2
          | 1, hj =>
            have hxb := le_of_not_lt hbc
            have h2 := hb_lt
            simp only [List.getElem_cons_succ] at h2 ⊢
            simp only [List.getElem_cons_zero]
            exact lt_of_le_of_lt hxb (by simpa using h2)
          | j + 2, hj =>
            have := hfirst (j + 1) (by simpa using hj) (by omega)
            simpa using this

/-- C1: for a non-empty action enumeration, `act` returns the action of the
vote triple whose `(vote, rank)` key is lexicographically greatest (the
first conjunct spells out the lexicographic order: greater vote wins, equal
votes are broken by greater rank), and every triple strictly before the
selected one in the model's enumeration order has a strictly smaller key,
so among equals the first enumerated action is returned. -/
theorem C1_act_selects_lex_greatest {V : Type} [DecidableEq V] (m : QModel V)
    (s : State V) (target : List (V × ℝ))
    (hne : m.actions s.current_x ≠ []) :
    (∀ p q : ℝ × ℕ, toLex p < toLex q ↔ p.1 < q.1 ∨ (p.1 = q.1 ∧ p.2 < q.2))
    ∧ ∃ (i : ℕ) (hi : i < (votes m s 1 target).length),
      act m s target = some ((votes m s 1 target)[i]).1
      ∧ (∀ (j : ℕ) (hj : j < (votes m s 1 target).length),
          voteKey ((votes m s 1 target)[j]) ≤ voteKey ((votes m s 1 target)[i]))
      ∧ (∀ (j : ℕ) (hj : j < (votes m s 1 target).length), j < i →
          voteKey ((votes m s 1 target)[j]) < voteKey ((votes m s 1 target)[i])) := by
  refine ⟨fun p q => Prod.Lex.lt_iff p q, ?_⟩
  obtain ⟨a, rest, hact⟩ : ∃ a rest, m.actions s.current_x = a :: rest := by
    cases h : m.actions s.current_x with
    | nil => exact absurd h hne
    | cons a rest => exact ⟨a, rest, rfl⟩
  have hv : votes m s 1 target
      = (a, actionVote s 1 (m.effect a s.current_x) target, actionRank a)
        :: rest.map (fun action =>
            (action, actionVote s 1 (m.effect action s.current_x) target,
              actionRank action)) := by
    rw [votes, hact, List.map_cons]
  obtain ⟨i, hi, heq, hmax, hfirst⟩ := firstArgmax_spec voteKey
    (rest.map (fun action =>
      (action, actionVote s 1 (m.effect action s.current_x) target,
        actionRank action)))
    (a, actionVote s 1 (m.effect a s.current_x) target, actionRank a)
  have hacteq : act m s target
      = some (firstArgmax voteKey
          (a, actionVote s 1 (m.effect a s.current_x) target, actionRank a)
          (rest.map (fun action =>
            (action, actionVote s 1 (m.effect action s.current_x) target,
              actionRank action)))).1 := by
    unfold act actGen
    rw [hv]
  rw [hv]
  exact ⟨i, hi, by rw [hacteq, heq], hmax, hfirst⟩

/-- A concrete two-action qualitative model over a single control variable,
used to instantiate hypothesised theorems about `act`. -/
def unitModel : QModel Unit :=
  { actions := fun _ => [[((), 1)], [((), 0)]]
    effect := fun _ _ _ => 0 }

/-- C1 witness: instantiation on `unitModel` over the fresh state and the
empty target. -/
theorem C1_act_selects_lex_greatest_witness :
    unitModel.actions (reset Unit).current_x ≠ []
    ∧ ((∀ p q : ℝ × ℕ,
          toLex p < toLex q ↔ p.1 < q.1 ∨ (p.1 = q.1 ∧ p.2 < q.2))
      ∧ ∃ (i : ℕ) (hi : i < (votes unitModel (reset Unit) 1 []).length),
        act unitModel (reset Unit) []
            = some ((votes unitModel (reset Unit) 1 [])[i]).1
        ∧ (∀ (j : ℕ) (hj : j < (votes unitModel (reset Unit) 1 []).length),
            voteKey ((votes unitModel (reset Unit) 1 [])[j])
              ≤ voteKey ((votes unitModel (reset Unit) 1 [])[i]))
        ∧ (∀ (j : ℕ) (hj : j < (votes unitModel (reset Unit) 1 []).length),
            j < i →
            voteKey ((votes unitModel (reset Unit) 1 [])[j])
              < voteKey ((votes unitModel (reset Unit) 1 [])[i]))) :=
  ⟨by simp [unitModel],
    C1_act_selects_lex_greatest unitModel (reset Unit) [] (by simp [unitModel])⟩

/-- C6 witness: instantiation on `posFiveState` at target 3 (a target in
the negative direction of the recorded position 5). -/
theorem C6_eta_zero_and_mirror_witness :
    posFiveState.current_x () = some 5
    ∧ (((3 : ℝ) = 5 → eta posFiveState () 3 = 0)
      ∧ ((3 : ℝ) < 5 → eta posFiveState () 3 =
          time_to_goal (-((3 : ℝ) - 5)) (-((posFiveState.current_v ()).getD 0))
            ((posFiveState.max_v_neg ()).getD 1)
            ((posFiveState.max_a_neg ()).getD 1)
            ((posFiveState.max_a_pos ()).getD 1))) :=
  ⟨rfl, C6_eta_zero_and_mirror posFiveState () 5 3 rfl⟩

/-- Accumulating a sum by `foldl` equals the sum of the mapped list. -/
lemma foldl_add_eq_sum {α : Type} (f : α → ℝ) (l : List α) :
    ∀ c : ℝ, l.foldl (fun acc y => acc + f y) c = c + (l.map f).sum := by
  induction l with
  | nil => intro c; simp
  | cons a t ih =>
    intro c
    simp only [List.foldl_cons, List.map_cons, List.sum_cons, ih]
    ring

/-- Accumulating a conditional count by `foldl` equals the length of the
filtered list. -/
lemma foldl_count_eq_filter_length {α : Type} (p : α → Prop) [DecidablePred p]
    (l : List α) :
    ∀ c : ℕ, l.foldl (fun r y => r + if p y then 1 else 0) c
      = c + (l.filter (fun y => p y)).length := by
  induction l with
  | nil => intro c; simp
  | cons a t ih =>
    intro c
    by_cases h : p a
    · simp [List.filter_cons, h, ih]
      omega
    · simp [List.filter_cons, h, ih]

/-- C2: the vote `act` accumulates for an action with effect vector `eff`
is the sum, over the target variables, of
`desired_direction * action_direction * eta`, where the action direction is
the effect entry when its magnitude is at most 1 and `0` otherwise
(non-deterministic effects contribute nothing), and the rank `act` stores
for an action is the number of its entries of magnitude exactly 1
(`actionVote` and `actionRank` are exactly the quantities `act` places in
its vote triples, see `votes` and `actGen`). -/
theorem C2_vote_sum_and_rank {V : Type} [DecidableEq V] (s : State V) (σ : ℝ)
    (eff : V → ℤ) (target : List (V × ℝ)) (action : List (V × ℤ)) :
    actionVote s σ eff target
      = (target.map (fun p =>
          (signAt σ (p.2 - (s.current_x p.1).getD 0)
            * (if |eff p.1| ≤ 1 then (eff p.1 : ℝ) else 0))
            * eta s p.1 p.2)).sum
    ∧ actionRank action
      = (action.filter (fun p => p.2.natAbs = 1)).length := by
  constructor
  · rw [actionVote]
    rw [foldl_add_eq_sum (fun p =>
      (signAt σ (p.2 - (s.current_x p.1).getD 0)
        * (if |eff p.1| ≤ 1 then (eff p.1 : ℝ) else 0)) * eta s p.1 p.2) target 0]
    simp
  · rw [actionRank]
    rw [foldl_count_eq_filter_length (fun p => p.2.natAbs = 1) action 0]
    simp

/-- Growth order on optional stored magnitudes: a recorded value may only
stay or grow, and may appear where it was absent. -/
def optLe (o1 o2 : Option ℝ) : Prop :=
  ∀ g, o1 = some g → ∃ k, o2 = some k ∧ g ≤ k

lemma optLe_refl (o : Option ℝ) : optLe o o :=
  fun g hg => ⟨g, hg, le_rfl⟩

lemma optLe_trans {o1 o2 o3 : Option ℝ} (h12 : optLe o1 o2)
    (h23 : optLe o2 o3) : optLe o1 o3 := by
  intro g hg
  obtain ⟨k, hk, hgk⟩ := h12 g hg
  obtain ⟨j, hj, hkj⟩ := h23 k hk
  exact ⟨j, hj, le_trans hgk hkj⟩

/-- The signed-extremum update never decreases a stored entry. -/
lemma updateMax_optLe {V : Type} [DecidableEq V] (m : V → Option ℝ) (w : V)
    (g : ℝ) (u : V) : optLe (m u) (updateMax m w g u) := by
  unfold updateMax
  cases hm : m w with
  | some cur =>
    simp only [hm]
    by_cases hlt : cur < g
    · rw [if_pos hlt]
      simp only [mapUpd]
      by_cases h : u = w
      · subst h
        intro y hy
        rw [hm] at hy
        injection hy with hy2
        exact ⟨g, by simp, by rw [← hy2]; exact le_of_lt hlt⟩
      · intro y hy
        rw [if_neg h]
        exact ⟨y, hy, le_rfl⟩
    · rw [if_neg hlt]
      exact optLe_refl _
  | none =>
    simp only [hm]
    simp only [mapUpd]
    by_cases h : u = w
    · subst h
      intro y hy
      rw [hm] at hy
      exact absurd hy (by simp)
    · intro y hy
      rw [if_neg h]
      exact ⟨y, hy, le_rfl⟩

/-- A single `observeVar` step only grows each of the four extrema maps. -/
lemma observeVar_max_mono {V : Type} [DecidableEq V] (dt : ℝ) (s : State V)
    (w : V) (x : ℝ) (u : V) :
    optLe (s.max_v_pos u) ((observeVar dt s w x).max_v_pos u)
    ∧ optLe (s.max_v_neg u) ((observeVar dt s w x).max_v_neg u)
    ∧ optLe (s.max_a_pos u) ((observeVar dt s w x).max_a_pos u)
    ∧ optLe (s.max_a_neg u) ((observeVar dt s w x).max_a_neg u) := by
  unfold observeVar
  cases hx : s.current_x w with
  | none =>
    simp only [hx, Option.map_none']
    exact ⟨optLe_refl _, optLe_refl _, optLe_refl _, optLe_refl _⟩
  | some x0 =>
    simp only [hx, Option.map_some']
    cases hv : s.current_v w with
    | none =>
      simp only [hv, Option.map_none']
      split_ifs <;>
        refine ⟨?_, ?_, ?_, ?_⟩ <;>
        first
          | exact optLe_refl _
          | exact updateMax_optLe _ _ _ _
    | some v0 =>
      simp only [hv, Option.map_some']
      split_ifs <;>
        refine ⟨?_, ?_, ?_, ?_⟩ <;>
        first
          | exact optLe_refl _
          | exact updateMax_optLe _ _ _ _

/-- A whole `observe` call only grows each of the four extrema maps. -/
lemma observe_max_mono {V : Type} [DecidableEq V] (ns : List (V × ℝ)) :
    ∀ (s : State V) (dt : ℝ) (u : V),
      optLe (s.max_v_pos u) ((observe s ns dt).max_v_pos u)
      ∧ optLe (s.max_v_neg u) ((observe s ns dt).max_v_neg u)
      ∧ optLe (s.max_a_pos u) ((observe s ns dt).max_a_pos u)
      ∧ optLe (s.max_a_neg u) ((observe s ns dt).max_a_neg u) := by
  induction ns with
  | nil =>
    intro s dt u
    exact ⟨optLe_refl _, optLe_refl _, optLe_refl _, optLe_refl _⟩
  | cons p t ih =>
    intro s dt u
    have hstep := observeVar_max_mono dt s p.1 p.2 u
    have hrest := ih (observeVar dt s p.1 p.2) dt u
    have hobs : observe s (p :: t) dt
        = observe (observeVar dt s p.1 p.2) t dt := rfl
    rw [hobs]
    exact ⟨optLe_trans hstep.1 hrest.1,
      optLe_trans hstep.2.1 hrest.2.1,
      optLe_trans hstep.2.2.1 hrest.2.2.1,
      optLe_trans hstep.2.2.2 hrest.2.2.2⟩

/-- One actor call between two `reset` calls: an `observe` call or a
`restart` call. -/
inductive ObsCall (V : Type) where
  | obs (ns : List (V × ℝ)) (dt : ℝ) : ObsCall V
  | restartCall : ObsCall V

/-- Run a sequence of `observe`/`restart` calls from a state. -/
noncomputable def runCalls {V : Type} [DecidableEq V] (s : State V) :
    List (ObsCall V) → State V
  | [] => s
  | ObsCall.obs ns dt :: rest => runCalls (observe s ns dt) rest
  | ObsCall.restartCall :: rest => runCalls (restart s) rest

/-- C7: across any sequence of `observe` (and `restart`) calls between two
`reset` calls, each of the four stored extrema for each variable is
monotonically non-decreasing in magnitude (the maps store magnitudes), and
`restart` changes none of the four extrema maps while clearing exactly the
position, velocity and acceleration maps. -/
theorem C7_extrema_monotone_restart_preserves {V : Type} [DecidableEq V]
    (s : State V) (calls : List (ObsCall V)) (u : V) :
    (optLe (s.max_v_pos u) ((runCalls s calls).max_v_pos u)
      ∧ optLe (s.max_v_neg u) ((runCalls s calls).max_v_neg u)
      ∧ optLe (s.max_a_pos u) ((runCalls s calls).max_a_pos u)
      ∧ optLe (s.max_a_neg u) ((runCalls s calls).max_a_neg u))
    ∧ (∀ t : State V,
        (restart t).max_v_pos = t.max_v_pos
        ∧ (restart t).max_v_neg = t.max_v_neg
        ∧ (restart t).max_a_pos = t.max_a_pos
        ∧ (restart t).max_a_neg = t.max_a_neg
        ∧ (restart t).current_x = (fun _ => none)
        ∧ (restart t).current_v = (fun _ => none)
        ∧ (restart t).current_a = (fun _ => none)) := by
  refine ⟨?_, fun t => ⟨rfl, rfl, rfl, rfl, rfl, rfl, rfl⟩⟩
  induction calls generalizing s with
  | nil => exact ⟨optLe_refl _, optLe_refl _, optLe_refl _, optLe_refl _⟩
  | cons c rest ih =>
    cases c with
    | obs ns dt =>
      have hstep := observe_max_mono ns s dt u
      have hrest := ih (observe s ns dt)
      exact ⟨optLe_trans hstep.1 hrest.1,
        optLe_trans hstep.2.1 hrest.2.1,
        optLe_trans hstep.2.2.1 hrest.2.2.1,
        optLe_trans hstep.2.2.2 hrest.2.2.2⟩
    | restartCall => exact ih (restart s)

lemma mapUpd_self {V : Type} [DecidableEq V] (m : V → Option ℝ) (w : V)
    (x : ℝ) : mapUpd m w x w = some x := by
  simp [mapUpd]

lemma mapUpd_other {V : Type} [DecidableEq V] (m : V → Option ℝ) (w : V)
    (x : ℝ) (u : V) (h : u ≠ w) : mapUpd m w x u = m u := by
  simp [mapUpd, h]

/-- The signed-extremum update stores, at the updated key, a value at least
as large as the new magnitude. -/
lemma updateMax_self {V : Type} [DecidableEq V] (m : V → Option ℝ) (w : V)
    (g : ℝ) : ∃ y, updateMax m w g w = some y ∧ g ≤ y := by
  unfold updateMax
  cases hm : m w with
  | none =>
    simp only [hm]
    exact ⟨g, mapUpd_self m w g, le_rfl⟩
  | some cur =>
    simp only [hm]
    by_cases hlt : cur < g
    · rw [if_pos hlt]
      exact ⟨g, mapUpd_self m w g, le_rfl⟩
    · rw [if_neg hlt]
      exact ⟨cur, hm, le_of_not_lt hlt⟩

lemma updateMax_other {V : Type} [DecidableEq V] (m : V → Option ℝ) (w : V)
    (g : ℝ) (u : V) (h : u ≠ w) : updateMax m w g u = m u := by
  unfold updateMax
  cases hm : m w with
  | none =>
    simp only [hm]
    exact mapUpd_other m w g u h
  | some cur =>
    simp only [hm]
    by_cases hlt : cur < g
    · rw [if_pos hlt]
      exact mapUpd_other m w g u h
    · rw [if_neg hlt]

/-- The signed-extremum update preserves positivity of all stored values
when the new magnitude is positive. -/
lemma updateMax_pos {V : Type} [DecidableEq V] {m : V → Option ℝ} {w : V}
    {g : ℝ} (hg : 0 < g) (hm : ∀ u c, m u = some c → 0 < c) :
    ∀ u c, updateMax m w g u = some c → 0 < c := by
  intro u c hc
  by_cases h : u = w
  · subst h
    obtain ⟨y, hy, hgy⟩ := updateMax_self m u g
    rw [hy] at hc
    injection hc with hc2
    subst hc2
    exact lt_of_lt_of_le hg hgy
  · rw [updateMax_other m w g u h] at hc
    exact hm u c hc

/-- How one `observeVar` step can change the velocity-related fields:
either nothing (no previous position), or the velocity `v` is recorded at
the observed variable and exactly the extremum of `v`'s sign is updated
with `|v|` (no extremum when `v = 0`). -/
lemma observeVar_v_fields {V : Type} [DecidableEq V] (dt : ℝ) (s : State V)
    (w : V) (x : ℝ) :
    ((observeVar dt s w x).current_v = s.current_v
      ∧ (observeVar dt s w x).max_v_pos = s.max_v_pos
      ∧ (observeVar dt s w x).max_v_neg = s.max_v_neg)
    ∨ ∃ v : ℝ, (observeVar dt s w x).current_v = mapUpd s.current_v w v
      ∧ ((v = 0 ∧ (observeVar dt s w x).max_v_pos = s.max_v_pos
            ∧ (observeVar dt s w x).max_v_neg = s.max_v_neg)
        ∨ (0 < v ∧ (observeVar dt s w x).max_v_pos = updateMax s.max_v_pos w |v|
            ∧ (observeVar dt s w x).max_v_neg = s.max_v_neg)
        ∨ (v < 0 ∧ (observeVar dt s w x).max_v_pos = s.max_v_pos
            ∧ (observeVar dt s w x).max_v_neg = updateMax s.max_v_neg w |v|)) := by
  cases hx : s.current_x w with
  | none =>
    refine Or.inl ⟨?_, ?_, ?_⟩ <;>
    · unfold observeVar
      simp [hx]
  | some x0 =>
    by_cases h1 : (x - x0) / dt ≠ 0
    · by_cases h2 : 0 < (x - x0) / dt
      · refine Or.inr ⟨(x - x0) / dt, ?_, Or.inr (Or.inl ⟨h2, ?_, ?_⟩)⟩ <;>
        · unfold observeVar
          cases hv : s.current_v w <;>
            simp [hx, hv, h1, h2] <;>
            (try (split_ifs <;> simp))
      · have hneg : (x - x0) / dt < 0 := lt_of_le_of_ne (le_of_not_lt h2) h1
        refine Or.inr ⟨(x - x0) / dt, ?_, Or.inr (Or.inr ⟨hneg, ?_, ?_⟩)⟩ <;>
        · unfold observeVar
          cases hv : s.current_v w <;>
            simp [hx, hv, h1, h2] <;>
            (try (split_ifs <;> simp))
    · have hzero : (x - x0) / dt = 0 := not_ne_iff.mp h1
      refine Or.inr ⟨(x - x0) / dt, ?_, Or.inl ⟨hzero, ?_, ?_⟩⟩ <;>
      · unfold observeVar
        cases hv : s.current_v w <;>
          simp [hx, hv, hzero] <;>
          (try (split_ifs <;> simp))

/-- The velocity-extrema invariant: a recorded positive velocity is
dominated by a present positive-velocity extremum, a recorded negative
velocity is dominated in magnitude by a present negative-velocity extremum,
and all stored extrema are positive. -/
def VelInv {V : Type} (s : State V) : Prop :=
  (∀ u v, s.current_v u = some v →
      (0 < v → ∃ g, s.max_v_pos u = some g ∧ v ≤ g)
      ∧ (v < 0 → ∃ g, s.max_v_neg u = some g ∧ -v ≤ g))
  ∧ (∀ u g, s.max_v_pos u = some g → 0 < g)
  ∧ (∀ u g, s.max_v_neg u = some g → 0 < g)

lemma velInv_observeVar {V : Type} [DecidableEq V] (dt : ℝ) (s : State V)
    (w : V) (x : ℝ) (h : VelInv s) : VelInv (observeVar dt s w x) := by
  obtain ⟨h1, h2, h3⟩ := h
  rcases observeVar_v_fields dt s w x with ⟨hcv, hvp, hvn⟩ | ⟨v, hcv, hcase⟩
  · refine ⟨?_, ?_, ?_⟩
    · intro u vv hvv
      rw [hcv] at hvv
      exact ⟨fun hp => by rw [hvp]; exact (h1 u vv hvv).1 hp,
        fun hn => by rw [hvn]; exact (h1 u vv hvv).2 hn⟩
    · intro u g hg
      rw [hvp] at hg
      exact h2 u g hg
    · intro u g hg
      rw [hvn] at hg
      exact h3 u g hg
  · rcases hcase with ⟨hv0, hvp, hvn⟩ | ⟨hvpos, hvp, hvn⟩ | ⟨hvneg, hvp, hvn⟩
    · refine ⟨?_, ?_, ?_⟩
      · intro u vv hvv
        rw [hcv] at hvv
        by_cases huw : u = w
        · subst huw
          rw [mapUpd_self] at hvv
          injection hvv with he
          subst he
          rw [hv0]
          exact ⟨fun hp => absurd hp (lt_irrefl 0),
            fun hn => absurd hn (lt_irrefl 0)⟩
        · rw [mapUpd_other _ _ _ _ huw] at hvv
          exact ⟨fun hp => by rw [hvp]; exact (h1 u vv hvv).1 hp,
            fun hn => by rw [hvn]; exact (h1 u vv hvv).2 hn⟩
      · intro u g hg
        rw [hvp] at hg
        exact h2 u g hg
      · intro u g hg
        rw [hvn] at hg
        exact h3 u g hg
    · refine ⟨?_, ?_, ?_⟩
      · intro u vv hvv
        rw [hcv] at hvv
        by_cases huw : u = w
        · subst huw
          rw [mapUpd_self] at hvv
          injection hvv with he
          subst he
          constructor
          · intro hp
            obtain ⟨y, hy, hgy⟩ := updateMax_self s.max_v_pos u |v|
            rw [hvp]
            exact ⟨y, hy, le_trans (le_abs_self v) hgy⟩
          · intro hn
            exact absurd hn (not_lt.mpr (le_of_lt hvpos))
        · rw [mapUpd_other _ _ _ _ huw] at hvv
          constructor
          · intro hp
            obtain ⟨g, hg, hle⟩ := (h1 u vv hvv).1 hp
            rw [hvp, updateMax_other _ _ _ _ huw]
            exact ⟨g, hg, hle⟩
          · intro hn
            rw [hvn]
            exact (h1 u vv hvv).2 hn
      · intro u g hg
        rw [hvp] at hg
        exact updateMax_pos (abs_pos.mpr (ne_of_gt hvpos)) h2 u g hg
      · intro u g hg
        rw [hvn] at hg
        exact h3 u g hg
    · refine ⟨?_, ?_, ?_⟩
      · intro u vv hvv
        rw [hcv] at hvv
        by_cases huw : u = w
        · subst huw
          rw [mapUpd_self] at hvv
          injection hvv with he
          subst he
          constructor
          · intro hp
            exact absurd hp (not_lt.mpr (le_of_lt hvneg))
          · intro hn
            obtain ⟨y, hy, hgy⟩ := updateMax_self s.max_v_neg u |v|
            rw [hvn]
            refine ⟨y, hy, ?_⟩
            rw [← abs_of_neg hvneg]
            exact hgy
        · rw [mapUpd_other _ _ _ _ huw] at hvv
          constructor
          · intro hp
            rw [hvp]
            exact (h1 u vv hvv).1 hp
          · intro hn
            obtain ⟨g, hg, hle⟩ := (h1 u vv hvv).2 hn
            rw [hvn, updateMax_other _ _ _ _ huw]
            exact ⟨g, hg, hle⟩
      · intro u g hg
        rw [hvp] at hg
        exact h2 u g hg
      · intro u g hg
        rw [hvn] at hg
        exact updateMax_pos (abs_pos.mpr (ne_of_lt hvneg)) h3 u g hg

lemma velInv_observe {V : Type} [DecidableEq V] (ns : List (V × ℝ)) :
    ∀ (s : State V) (dt : ℝ), VelInv s → VelInv (observe s ns dt) := by
  induction ns with
  | nil => exact fun s dt h => h
  | cons p t ih =>
    intro s dt h
    exact ih (observeVar dt s p.1 p.2) dt (velInv_observeVar dt s p.1 p.2 h)

lemma velInv_reset (V : Type) : VelInv (reset V) := by
  refine ⟨?_, ?_, ?_⟩ <;> intro u g hg <;> exact absurd hg (by simp [reset])

lemma velInv_restart {V : Type} {s : State V} (h : VelInv s) :
    VelInv (restart s) := by
  obtain ⟨h1, h2, h3⟩ := h
  exact ⟨fun u v hv => absurd hv (by simp [restart]), h2, h3⟩

/-- States reachable by any sequence of `reset`, `restart` and `observe`
calls with positive `dt`, starting from the freshly constructed actor. -/
inductive Reachable {V : Type} [DecidableEq V] : State V → Prop where
  | init : Reachable (reset V)
  | restartStep {s : State V} : Reachable s → Reachable (restart s)
  | observeStep {s : State V} (ns : List (V × ℝ)) (dt : ℝ) :
      Reachable s → 0 < dt → Reachable (observe s ns dt)

lemma reachable_velInv {V : Type} [DecidableEq V] {s : State V}
    (h : Reachable s) : VelInv s := by
  induction h with
  | init => exact velInv_reset V
  | restartStep _ ih => exact velInv_restart ih
  | observeStep ns dt _ _ ih => exact velInv_observe ns _ dt ih

/-- C9: in every reachable state, a recorded positive last velocity is
dominated by a present positive-velocity extremum and a recorded negative
one is dominated in magnitude by a present negative-velocity extremum;
consequently the initial velocity `eta` hands to `time_to_goal` — namely
`(current_v u).getD 0` in the positive-direction branch and its negation
in the negative-direction branch — never exceeds the cruise speed handed
alongside it (`(max_v_pos u).getD 1` respectively `(max_v_neg u).getD 1`). -/
theorem C9_velocity_within_extrema {V : Type} [DecidableEq V] (s : State V)
    (h : Reachable s) (u : V) :
    (∀ v, s.current_v u = some v →
        (0 < v → ∃ g, s.max_v_pos u = some g ∧ v ≤ g)
        ∧ (v < 0 → ∃ g, s.max_v_neg u = some g ∧ -v ≤ g))
    ∧ (s.current_v u).getD 0 ≤ (s.max_v_pos u).getD 1
    ∧ -((s.current_v u).getD 0) ≤ (s.max_v_neg u).getD 1 := by
  obtain ⟨h1, h2, h3⟩ := reachable_velInv h
  refine ⟨fun v hv => h1 u v hv, ?_, ?_⟩
  · cases hcv : s.current_v u with
    | none =>
      cases hmp : s.max_v_pos u with
      | none => norm_num
      | some g => simpa using le_of_lt (h2 u g hmp)
    | some v =>
      rcases lt_trichotomy v 0 with hneg | hzero | hpos
      · cases hmp : s.max_v_pos u with
        | none =>
          simp only [Option.getD_some, Option.getD_none]
          linarith
        | some g =>
          simp only [Option.getD_some]
          linarith [h2 u g hmp]
      · subst hzero
        cases hmp : s.max_v_pos u with
        | none => simp
        | some g =>
          simp only [Option.getD_some]
          linarith [h2 u g hmp]
      · obtain ⟨g, hg, hle⟩ := (h1 u v hcv).1 hpos
        rw [hg]
        simpa using hle
  · cases hcv : s.current_v u with
    | none =>
      cases hmp : s.max_v_neg u with
      | none => norm_num
      | some g => simpa using le_of_lt (h3 u g hmp)
    | some v =>
      rcases lt_trichotomy v 0 with hneg | hzero | hpos
      · obtain ⟨g, hg, hle⟩ := (h1 u v hcv).2 hneg
        rw [hg]
        simpa using hle
      · subst hzero
        cases hmp : s.max_v_neg u with
        | none => simp
        | some g =>
          simp only [Option.getD_some]
          linarith [h3 u g hmp]
      · cases hmp : s.max_v_neg u with
        | none =>
          simp only [Option.getD_some, Option.getD_none]
          linarith
        | some g =>
          simp only [Option.getD_some]
          linarith [h3 u g hmp]

/-- C9 witness: instantiation at the freshly constructed actor state. -/
theorem C9_velocity_within_extrema_witness :
    Reachable (reset Unit)
    ∧ ((∀ v, (reset Unit).current_v () = some v →
          (0 < v → ∃ g, (reset Unit).max_v_pos () = some g ∧ v ≤ g)
          ∧ (v < 0 → ∃ g, (reset Unit).max_v_neg () = some g ∧ -v ≤ g))
      ∧ ((reset Unit).current_v ()).getD 0
          ≤ ((reset Unit).max_v_pos ()).getD 1
      ∧ -(((reset Unit).current_v ()).getD 0)
          ≤ ((reset Unit).max_v_neg ()).getD 1) :=
  ⟨Reachable.init, C9_velocity_within_extrema (reset Unit) Reachable.init ()⟩

/-- C8 counterexample: with a recorded position for `x` and `dt = -1 ≤ 0`,
`observe` does not raise — it returns normally and silently records the
velocity `(1 - 0) / (-1) = -1` computed from the negative time step.  Only
`dt = 0` raises (`ZeroDivisionError`), so the claim fails for negative
`dt`. -/
theorem C8_counterexample_negative_dt :
    observeE (observe (reset String) [("x", 0)] 1) [("x", 1)] (-1)
      = Except.ok (observe (observe (reset String) [("x", 0)] 1) [("x", 1)] (-1))
    ∧ (observe (observe (reset String) [("x", 0)] 1) [("x", 1)] (-1)).current_v "x"
        = some (-1) := by
  have hs1 : observe (reset String) [("x", 0)] 1 =
      { current_x := mapUpd (fun _ => none) "x" 0
        current_v := fun _ => none
        current_a := fun _ => none
        max_v_pos := fun _ => none
        max_v_neg := fun _ => none
        max_a_pos := fun _ => none
        max_a_neg := fun _ => none } := by
    simp [observe, observeVar, reset, mapUpd]
  rw [hs1]
  constructor
  · simp [observeE, observeVarE, observe, mapUpd]
  · simp [observe, observeVar, mapUpd, updateMax]
    norm_num [mapUpd]

/-- C8 as amended: on a variable with a recorded position, `observe` with
`dt = 0` fails by raising (Python's `ZeroDivisionError` at the velocity
division), while for every nonzero `dt` — including negative `dt` — the
call silently updates the estimator state. -/
theorem C8_amended_zero_dt_raises {V : Type} [DecidableEq V] (s : State V)
    (u : V) (x x0 : ℝ) (hx : s.current_x u = some x0) :
    observeE s [(u, x)] 0 = Except.error ()
    ∧ ∀ dt : ℝ, dt ≠ 0 → observeE s [(u, x)] dt
        = Except.ok (observe s [(u, x)] dt) := by
  constructor
  · simp [observeE, observeVarE, hx]
  · intro dt hdt
    simp [observeE, observeVarE, observe, hx, hdt]

/-- C8 witness: instantiation on `posFiveState`. -/
theorem C8_amended_zero_dt_raises_witness :
    posFiveState.current_x () = some 5
    ∧ (observeE posFiveState [((), 7)] 0 = Except.error ()
      ∧ ∀ dt : ℝ, dt ≠ 0 → observeE posFiveState [((), 7)] dt
          = Except.ok (observe posFiveState [((), 7)] dt)) :=
  ⟨rfl, C8_amended_zero_dt_raises posFiveState () 7 5 rfl⟩

/-- When the target equals the (defaulted) current position, the distance
is zero and `eta` returns 0. -/
lemma eta_zero_of_dist_zero {V : Type} [DecidableEq V] (s : State V) (u : V)
    (x1 : ℝ) (hd : x1 - (s.current_x u).getD 0 = 0) : eta s u x1 = 0 := by
  rw [eta, hd]
  norm_num

/-- The accumulated vote does not depend on the sign convention at zero
distance: a zero-distance variable contributes `sign * direction * 0`. -/
lemma actionVote_sign_indep {V : Type} [DecidableEq V] (s : State V)
    (eff : V → ℤ) (target : List (V × ℝ)) (σ1 σ2 : ℝ) :
    actionVote s σ1 eff target = actionVote s σ2 eff target := by
  unfold actionVote
  suffices h : ∀ c : ℝ,
      target.foldl (fun vote p =>
        vote + (signAt σ1 (p.2 - (s.current_x p.1).getD 0)
          * (if |eff p.1| ≤ 1 then (eff p.1 : ℝ) else 0)) * eta s p.1 p.2) c
      = target.foldl (fun vote p =>
        vote + (signAt σ2 (p.2 - (s.current_x p.1).getD 0)
          * (if |eff p.1| ≤ 1 then (eff p.1 : ℝ) else 0)) * eta s p.1 p.2) c by
    exact h 0
  induction target with
  | nil => intro c; rfl
  | cons p t ih =>
    intro c
    simp only [List.foldl_cons]
    have hterm : (signAt σ1 (p.2 - (s.current_x p.1).getD 0)
          * (if |eff p.1| ≤ 1 then (eff p.1 : ℝ) else 0)) * eta s p.1 p.2
        = (signAt σ2 (p.2 - (s.current_x p.1).getD 0)
          * (if |eff p.1| ≤ 1 then (eff p.1 : ℝ) else 0)) * eta s p.1 p.2 := by
      by_cases hd : p.2 - (s.current_x p.1).getD 0 = 0
      · rw [eta_zero_of_dist_zero s p.1 p.2 hd]
        rw [mul_zero, mul_zero]
      · rw [show signAt σ1 (p.2 - (s.current_x p.1).getD 0)
            = signAt σ2 (p.2 - (s.current_x p.1).getD 0) by
          simp [signAt, hd]]
    rw [hterm]
    exact ih _

/-- C10: at zero distance the sign function is the chosen convention
(`signAt σ 0 = σ`, in particular `±1` for `math.copysign`, never 0), yet a
target variable sitting exactly at its target contributes exactly 0 to
every action's vote because `eta` is 0 there, and consequently the action
returned by the selector does not depend on the sign chosen at zero
distance. -/
theorem C10_zero_distance_vote_zero {V : Type} [DecidableEq V]
    (m : QModel V) (s : State V) (u : V) (cv : ℝ)
    (hx : s.current_x u = some cv) :
    (∀ σ : ℝ, signAt σ 0 = σ)
    ∧ (∀ (σ : ℝ) (eff : V → ℤ),
        (signAt σ (cv - (s.current_x u).getD 0)
          * (if |eff u| ≤ 1 then (eff u : ℝ) else 0)) * eta s u cv = 0)
    ∧ (∀ (target : List (V × ℝ)) (σ1 σ2 : ℝ),
        actGen m s σ1 target = actGen m s σ2 target) := by
  refine ⟨fun σ => by simp [signAt], ?_, ?_⟩
  · intro σ eff
    have heta : eta s u cv = 0 := by
      apply eta_zero_of_dist_zero
      rw [hx]
      simp
    rw [heta, mul_zero]
  · intro target σ1 σ2
    have hmap : (fun action => (action,
          actionVote s σ1 (m.effect action s.current_x) target,
          actionRank action))
        = (fun action => (action,
          actionVote s σ2 (m.effect action s.current_x) target,
          actionRank action)) := by
      funext action
      rw [actionVote_sign_indep]
    have hv : votes m s σ1 target = votes m s σ2 target := by
      rw [votes, votes, hmap]
    unfold actGen
    rw [hv]

/-- C10 witness: instantiation on `unitModel` and `posFiveState` at the
target value 5 equal to the recorded position. -/
theorem C10_zero_distance_vote_zero_witness :
    posFiveState.current_x () = some 5
    ∧ ((∀ σ : ℝ, signAt σ 0 = σ)
      ∧ (∀ (σ : ℝ) (eff : Unit → ℤ),
          (signAt σ ((5 : ℝ) - (posFiveState.current_x ()).getD 0)
            * (if |eff ()| ≤ 1 then (eff () : ℝ) else 0))
            * eta posFiveState () 5 = 0)
      ∧ (∀ (target : List (Unit × ℝ)) (σ1 σ2 : ℝ),
          actGen unitModel posFiveState σ1 target
            = actGen unitModel posFiveState σ2 target)) :=
  ⟨rfl, C10_zero_distance_vote_zero unitModel posFiveState () 5 rfl⟩

end QActor
